import Mathlib

/-!
Verification development for the binary-expression AST repository
(`binexp_parser.py`).  The Python class `BinOpAst` is shallowly embedded:
Python strings are lists of characters (ASCII fragment), in-place mutation
becomes functional state passing, and Python exceptions become `Except`
values.  Well-formed trees (the data-model invariant: operator symbols
restricted to the five supported operators, numeric values on number
leaves, string values on variable leaves) are captured by the inductive
type `Node`; the raw trees the constructor can actually build from
arbitrary token lists (including the degenerate attribute-less object
produced from an exhausted token list) are captured by `RawNode`.
-/

/-- Python strings, modelled as lists of characters (ASCII fragment). -/
abbrev Str := List Char

/-- The five operator symbols supported by the data model. -/
inductive OpSym where
  | add
  | sub
  | mul
  | div
  | mod
deriving DecidableEq, Repr

/-- The character of an operator symbol, as it appears in token text. -/
def OpSym.toStr : OpSym → Str
  | .add => ['+']
  | .sub => ['-']
  | .mul => ['*']
  | .div => ['/']
  | .mod => ['%']

/-- Well-formed `BinOpAst` trees: `num` is a number leaf (integer `val`,
no children), `var` a variable leaf (string `val`), `op` an operator node
with exactly two children. -/
inductive Node where
  | num (v : Int)
  | var (s : Str)
  | op (s : OpSym) (l r : Node)
deriving DecidableEq, Repr

/-- Python exceptions that the embedded code can raise. -/
inductive PyErr where
  | zeroDivisionError
  | valueError
  | attributeError
deriving DecidableEq, Repr

/-- Models the Python comparison `node.val == m` for an integer `m`:
variable and operator nodes hold string values, and in Python a string
never equals an integer, so only a number leaf can compare equal. -/
def valEqInt : Node → Int → Bool
  | .num v, m => v == m
  | .var _, _ => false
  | .op _ _ _, _ => false

/-- Whether a node is a number leaf (`self.type == NodeType.number`). -/
def isNum : Node → Bool
  | .num _ => true
  | _ => false

/-- `BinOpAst.identity(operator, match)`: recurse into both children, then
if this operator node's symbol equals `o` and a child's value equals `m`,
replace the node wholesale with the other child's contents (left match
checked first). -/
def identity (o : OpSym) (m : Int) : Node → Node
  | .num v => .num v
  | .var s => .var s
  | .op s l r =>
    let l2 := identity o m l
    let r2 := identity o m r
    if s = o then
      if valEqInt l2 m then r2
      else if valEqInt r2 m then l2
      else .op s l2 r2
    else .op s l2 r2

/-- `BinOpAst.add_id`: additive-identity elimination, `identity('+', 0)`. -/
def add_id (t : Node) : Node := identity .add 0 t

/-- `BinOpAst.mult_id`: multiplicative-identity elimination,
`identity('*', 1)`. -/
def mult_id (t : Node) : Node := identity .mul 1 t

/-- `BinOpAst.mult_by_zero`: recurse into both children, then if this is a
`*` node one of whose children has value `0`, replace it with a fresh
`Number(0)` leaf. -/
def mult_by_zero : Node → Node
  | .num v => .num v
  | .var s => .var s
  | .op s l r =>
    let l2 := mult_by_zero l
    let r2 := mult_by_zero r
    if s = .mul ∧ (valEqInt l2 0 ∨ valEqInt r2 0) then .num 0
    else .op s l2 r2

/-- `BinOpAst.evaluate` on a node whose children hold the integers `a` and
`b`: Python `//` and `%` are floor division and floor modulo (`Int.fdiv`,
`Int.fmod`), and both raise `ZeroDivisionError` when `b = 0`. -/
def evaluate (s : OpSym) (a b : Int) : Except PyErr Int :=
  match s with
  | .add => .ok (a + b)
  | .sub => .ok (a - b)
  | .mul => .ok (a * b)
  | .div => if b = 0 then .error .zeroDivisionError else .ok (Int.fdiv a b)
  | .mod => if b = 0 then .error .zeroDivisionError else .ok (Int.fmod a b)

/-- `BinOpAst.constant_fold`: recurse into both children; if both are now
number leaves, evaluate the operator over their values; otherwise run
`add_id`, `mult_id` and `mult_by_zero` on the subtree rooted here. -/
def constant_fold : Node → Except PyErr Node
  | .num v => .ok (.num v)
  | .var s => .ok (.var s)
  | .op s l r =>
    match constant_fold l with
    | .error e => .error e
    | .ok l2 =>
      match constant_fold r with
      | .error e => .error e
      | .ok r2 =>
        match l2, r2 with
        | .num a, .num b =>
          match evaluate s a b with
          | .error e => .error e
          | .ok c => .ok (.num c)
        | _, _ => .ok (mult_by_zero (mult_id (add_id (.op s l2 r2))))

/-- `BinOpAst.simplify_binops`: additive identity, multiplicative
identity, multiplication by zero, then constant folding — each run once,
in this order. -/
def simplify_binops (t : Node) : Except PyErr Node :=
  constant_fold (mult_by_zero (mult_id (add_id t)))

/-- The decimal digit characters. -/
def digitChar : Nat → Char
  | 0 => '0'
  | 1 => '1'
  | 2 => '2'
  | 3 => '3'
  | 4 => '4'
  | 5 => '5'
  | 6 => '6'
  | 7 => '7'
  | 8 => '8'
  | 9 => '9'
  | _ => '0'

/-- Little-endian base-10 digits of a natural number, with explicit fuel
so the function reduces in the kernel; `fuel ≥ m` is always sufficient. -/
def natDigitsRev (fuel m : Nat) : List Nat :=
  match fuel with
  | 0 => []
  | f + 1 => if m = 0 then [] else m % 10 :: natDigitsRev f (m / 10)

/-- Little-endian base-10 digits of a natural number. -/
def natToDigits (m : Nat) : List Nat := natDigitsRev m m

/-- Decimal rendering of a natural number, as Python `str` produces it. -/
def natRepr (m : Nat) : Str :=
  if m = 0 then ['0'] else (natToDigits m).reverse.map digitChar

/-- Decimal rendering of an integer, as Python `str` produces it
(a leading minus sign for negative values). -/
def intRepr (n : Int) : Str :=
  if n < 0 then '-' :: natRepr (-n).toNat else natRepr n.toNat

/-- `BinOpAst.prefix_str`: number and variable leaves render as their
value's text, an operator node as `symbol ++ " " ++ left ++ " " ++ right`. -/
def prefix_str : Node → Str
  | .num v => intRepr v
  | .var s => s
  | .op s l r => OpSym.toStr s ++ ' ' :: prefix_str l ++ ' ' :: prefix_str r

/-- ASCII decimal digit (codepoints 48–57), the fragment of Python
`str.isnumeric` relevant to this repository's tokens. -/
def pyDigit (c : Char) : Bool := decide (48 ≤ c.toNat) && decide (c.toNat ≤ 57)

/-- ASCII letter (codepoints 97–122 and 65–90), the fragment of Python
`str.isalpha` relevant to this repository's tokens. -/
def pyAlphaChar (c : Char) : Bool :=
  (decide (97 ≤ c.toNat) && decide (c.toNat ≤ 122)) ||
    (decide (65 ≤ c.toNat) && decide (c.toNat ≤ 90))

/-- Python `s.isnumeric()` on the ASCII fragment: nonempty and all digits. -/
def pyIsNumeric (s : Str) : Bool := !s.isEmpty && s.all pyDigit

/-- Python `s.isalpha()` on the ASCII fragment: nonempty and all letters. -/
def pyIsAlpha (s : Str) : Bool := !s.isEmpty && s.all pyAlphaChar

/-- Python `s.lstrip("-")`: drop every leading minus sign. -/
def lstripMinus (s : Str) : Str := s.dropWhile (fun c => c = '-')

/-- Numeric value of a digit character. -/
def charVal (c : Char) : Nat := c.toNat - 48

/-- Value of a big-endian digit string. -/
def decodeNat (ds : Str) : Nat := ds.foldl (fun a c => 10 * a + charVal c) 0

/-- Python `int(s)` on the tokens this parser can feed it: an optional
single leading sign followed by one or more digits converts to the signed
value; anything else (for instance two leading minus signs) raises
`ValueError`, modelled as `none`. -/
def pyInt (s : Str) : Option Int :=
  match s with
  | [] => none
  | c :: rest =>
    if c = '-' then
      if pyIsNumeric rest then some (-(decodeNat rest : Int)) else none
    else if c = '+' then
      if pyIsNumeric rest then some ((decodeNat rest : Int)) else none
    else if pyIsNumeric (c :: rest) then some ((decodeNat (c :: rest) : Int))
    else none

/-- Raw trees the `BinOpAst` constructor can build from an arbitrary token
list.  `empty` is the degenerate object produced when the constructor is
called on an exhausted list: its `if prefix_list:` guard is false, so it
returns silently and the object has no `val`, `type`, `left` or `right`
attribute at all. -/
inductive RawNode where
  | empty
  | num (v : Int)
  | var (s : Str)
  | opr (s : Str) (l r : RawNode)
deriving DecidableEq, Repr

/-- Fuelled recursive-descent parser, the body of `BinOpAst.__init__`:
pop the first token; if its text with leading minus signs stripped is
numeric, convert with `int` (a `ValueError` is fatal); else if alphabetic,
a variable leaf; otherwise an operator symbol with two recursively parsed
children.  An exhausted list yields the degenerate `empty` node, not an
error.  Fuel `≥` the list length is always sufficient. -/
def parseF (fuel : Nat) (toks : List Str) : Except PyErr (RawNode × List Str) :=
  match fuel, toks with
  | _, [] => .ok (.empty, [])
  | 0, _ :: _ => .error .valueError
  | f + 1, t :: rest =>
    if pyIsNumeric (lstripMinus t) then
      match pyInt t with
      | some n => .ok (.num n, rest)
      | none => .error .valueError
    else if pyIsAlpha t then .ok (.var t, rest)
    else
      match parseF f rest with
      | .error e => .error e
      | .ok (l, rest1) =>
        match parseF f rest1 with
        | .error e => .error e
        | .ok (r, rest2) => .ok (.opr t l r, rest2)

/-- `BinOpAst(prefix_list)`: parse a token list into a raw tree, returning
the unconsumed suffix of the list. -/
def parse (toks : List Str) : Except PyErr (RawNode × List Str) :=
  parseF toks.length toks

/-- Injection of well-formed trees into raw trees. -/
def toRaw : Node → RawNode
  | .num v => .num v
  | .var s => .var s
  | .op s l r => .opr (OpSym.toStr s) (toRaw l) (toRaw r)

/-- `BinOpAst.prefix_str` on raw trees: on the degenerate `empty` node the
Python code reads the missing `type` attribute and raises
`AttributeError`. -/
def rawPrefix : RawNode → Except PyErr Str
  | .empty => .error .attributeError
  | .num v => .ok (intRepr v)
  | .var s => .ok s
  | .opr s l r =>
    match rawPrefix l with
    | .error e => .error e
    | .ok pl =>
      match rawPrefix r with
      | .error e => .error e
      | .ok pr => .ok (s ++ ' ' :: pl ++ ' ' :: pr)

/-- The flat prefix token list of a well-formed tree. -/
def tokens : Node → List Str
  | .num v => [intRepr v]
  | .var s => [s]
  | .op s l r => OpSym.toStr s :: (tokens l ++ tokens r)

/-- Join a token list with single spaces. -/
def joinSp : List Str → Str
  | [] => []
  | [x] => x
  | x :: y :: ys => x ++ ' ' :: joinSp (y :: ys)

/-- A character other than the space used by the renderings. -/
def notSpace (c : Char) : Bool := c != ' '

/-- Fuelled model of Python `str.split()` on space-separated text: skip
spaces, take a maximal nonspace run as a token, repeat.  Fuel `≥` the
string length is always sufficient. -/
def pySplitF (fuel : Nat) (s : Str) : List Str :=
  match fuel, s with
  | _, [] => []
  | 0, _ :: _ => []
  | f + 1, c :: cs =>
    if c = ' ' then pySplitF f cs
    else (c :: cs).takeWhile notSpace :: pySplitF f ((c :: cs).dropWhile notSpace)

/-- Python `s.split()` on space-separated text. -/
def pySplit (s : Str) : List Str := pySplitF s.length s

/-- Well-formedness of a tree for round-trip purposes: every variable name
is a nonempty alphabetic string (operator symbols are restricted to the
five supported operators by the `Node` type itself). -/
def wf : Node → Bool
  | .num _ => true
  | .var s => pyIsAlpha s
  | .op _ l r => wf l && wf r

/-- Node count of a tree. -/
def size : Node → Nat
  | .num _ => 1
  | .var _ => 1
  | .op _ l r => 1 + size l + size r

theorem size_pos (t : Node) : 1 ≤ size t := by
  cases t <;> simp [size]
  omega

theorem identity_size (o : OpSym) (m : Int) (t : Node) :
    size (identity o m t) ≤ size t ∧
      (identity o m t = t ∨ size (identity o m t) < size t) := by
  induction t with
  | num v => simp [identity]
  | var s => simp [identity]
  | op s l r ihl ihr =>
    have hl1 := size_pos (identity o m l)
    have hr1 := size_pos (identity o m r)
    have hT : size (Node.op s l r) = 1 + size l + size r := rfl
    obtain ⟨ihl1, ihl2⟩ := ihl
    obtain ⟨ihr1, ihr2⟩ := ihr
    simp only [identity]
    split
    · split
      · exact ⟨by omega, Or.inr (by omega)⟩
      · split
        · exact ⟨by omega, Or.inr (by omega)⟩
        · have hX : size (Node.op s (identity o m l) (identity o m r)) =
              1 + size (identity o m l) + size (identity o m r) := rfl
          refine ⟨by omega, ?_⟩
          rcases ihl2 with he | hlt
          · rcases ihr2 with he2 | hlt2
            · left; rw [he, he2]
            · right; omega
          · right; omega
    · have hX : size (Node.op s (identity o m l) (identity o m r)) =
          1 + size (identity o m l) + size (identity o m r) := rfl
      refine ⟨by omega, ?_⟩
      rcases ihl2 with he | hlt
      · rcases ihr2 with he2 | hlt2
        · left; rw [he, he2]
        · right; omega
      · right; omega

theorem mult_by_zero_size (t : Node) :
    size (mult_by_zero t) ≤ size t ∧
      (mult_by_zero t = t ∨ size (mult_by_zero t) < size t) := by
  induction t with
  | num v => simp [mult_by_zero]
  | var s => simp [mult_by_zero]
  | op s l r ihl ihr =>
    have hl1 := size_pos (mult_by_zero l)
    have hr1 := size_pos (mult_by_zero r)
    have hT : size (Node.op s l r) = 1 + size l + size r := rfl
    have h0 : size (Node.num 0) = 1 := rfl
    obtain ⟨ihl1, ihl2⟩ := ihl
    obtain ⟨ihr1, ihr2⟩ := ihr
    simp only [mult_by_zero]
    split
    · exact ⟨by omega, Or.inr (by omega)⟩
    · have hX : size (Node.op s (mult_by_zero l) (mult_by_zero r)) =
          1 + size (mult_by_zero l) + size (mult_by_zero r) := rfl
      refine ⟨by omega, ?_⟩
      rcases ihl2 with he | hlt
      · rcases ihr2 with he2 | hlt2
        · left; rw [he, he2]
        · right; omega
      · right; omega

/-- The three single-pass identity rules in the order the source composes
them in `constant_fold`'s else branch and in `simplify_binops`. -/
def idRules (t : Node) : Node := mult_by_zero (mult_id (add_id t))

theorem idRules_size (t : Node) :
    size (idRules t) ≤ size t ∧ (idRules t = t ∨ size (idRules t) < size t) := by
  obtain ⟨h1, h2⟩ := identity_size .add 0 t
  obtain ⟨h3, h4⟩ := identity_size .mul 1 (identity .add 0 t)
  obtain ⟨h5, h6⟩ := mult_by_zero_size (identity .mul 1 (identity .add 0 t))
  show size (mult_by_zero (identity .mul 1 (identity .add 0 t))) ≤ size t ∧
    (mult_by_zero (identity .mul 1 (identity .add 0 t)) = t ∨
      size (mult_by_zero (identity .mul 1 (identity .add 0 t))) < size t)
  constructor
  · omega
  · rcases h6 with he3 | hlt3
    · rw [he3]
      rcases h4 with he2 | hlt2
      · rw [he2]; exact h2
      · right; omega
    · right; omega

theorem constant_fold_size (t : Node) (u : Node) (h : constant_fold t = .ok u) :
    size u ≤ size t ∧ (u = t ∨ size u < size t) := by
  induction t generalizing u with
  | num v => simp [constant_fold] at h; simp [← h]
  | var s => simp [constant_fold] at h; simp [← h]
  | op s l r ihl ihr =>
    have hpl := size_pos l
    have hpr := size_pos r
    have hT : size (Node.op s l r) = 1 + size l + size r := rfl
    simp only [constant_fold] at h
    split at h
    · exact absurd h (by simp)
    · rename_i l2 hcl
      split at h
      · exact absurd h (by simp)
      · rename_i r2 hcr
        obtain ⟨hl1, hl2⟩ := ihl l2 hcl
        obtain ⟨hr1, hr2⟩ := ihr r2 hcr
        split at h
        · -- both children are number leaves: evaluate
          split at h
          · exact absurd h (by simp)
          · simp only [Except.ok.injEq] at h
            subst h
            exact ⟨by simp [size]; omega, Or.inr (by simp [size]; omega)⟩
        · -- not both numbers: the three identity rules on this subtree
          simp only [Except.ok.injEq] at h
          subst h
          obtain ⟨h5, h6⟩ := idRules_size (.op s l2 r2)
          unfold idRules at h5 h6
          have hX : size (Node.op s l2 r2) = 1 + size l2 + size r2 := rfl
          refine ⟨by omega, ?_⟩
          rcases hl2 with he | hlt
          · rcases hr2 with he2 | hlt2
            · subst he; subst he2
              rcases h6 with he3 | hlt3
              · left; exact he3
              · right; omega
            · right; omega
          · right; omega

/-- No rule of the simplifier can fire anywhere in the tree: no operator
node has two number-leaf children, no `+` node has a `0` child, and no `*`
node has a `1` or `0` child. -/
def NoRedex : Node → Prop
  | .num _ => True
  | .var _ => True
  | .op s l r =>
    NoRedex l ∧ NoRedex r ∧
      ¬(isNum l = true ∧ isNum r = true) ∧
      ¬(s = .add ∧ (valEqInt l 0 = true ∨ valEqInt r 0 = true)) ∧
      ¬(s = .mul ∧ (valEqInt l 1 = true ∨ valEqInt r 1 = true)) ∧
      ¬(s = .mul ∧ (valEqInt l 0 = true ∨ valEqInt r 0 = true))

theorem identity_op (o : OpSym) (m : Int) (s : OpSym) (l r : Node)
    (hl : identity o m l = l) (hr : identity o m r = r) :
    identity o m (.op s l r) =
      if s = o then
        if valEqInt l m = true then r
        else if valEqInt r m = true then l
        else .op s l r
      else .op s l r := by
  simp only [identity, hl, hr]

theorem mult_by_zero_op (s : OpSym) (l r : Node)
    (hl : mult_by_zero l = l) (hr : mult_by_zero r = r) :
    mult_by_zero (.op s l r) =
      if s = .mul ∧ (valEqInt l 0 = true ∨ valEqInt r 0 = true) then .num 0
      else .op s l r := by
  simp only [mult_by_zero, hl, hr]

theorem add_id_fix (t : Node) (h : NoRedex t) : add_id t = t := by
  induction t with
  | num v => rfl
  | var s => rfl
  | op s l r ihl ihr =>
    obtain ⟨h1, h2, h3, h4, h5, h6⟩ := h
    show identity .add 0 (.op s l r) = .op s l r
    rw [identity_op .add 0 s l r (ihl h1) (ihr h2)]
    by_cases hs : s = .add
    · rw [if_pos hs, if_neg (fun hh => h4 ⟨hs, Or.inl hh⟩),
        if_neg (fun hh => h4 ⟨hs, Or.inr hh⟩)]
    · rw [if_neg hs]

theorem mult_id_fix (t : Node) (h : NoRedex t) : mult_id t = t := by
  induction t with
  | num v => rfl
  | var s => rfl
  | op s l r ihl ihr =>
    obtain ⟨h1, h2, h3, h4, h5, h6⟩ := h
    show identity .mul 1 (.op s l r) = .op s l r
    rw [identity_op .mul 1 s l r (ihl h1) (ihr h2)]
    by_cases hs : s = .mul
    · rw [if_pos hs, if_neg (fun hh => h5 ⟨hs, Or.inl hh⟩),
        if_neg (fun hh => h5 ⟨hs, Or.inr hh⟩)]
    · rw [if_neg hs]

theorem mult_by_zero_fix (t : Node) (h : NoRedex t) : mult_by_zero t = t := by
  induction t with
  | num v => rfl
  | var s => rfl
  | op s l r ihl ihr =>
    obtain ⟨h1, h2, h3, h4, h5, h6⟩ := h
    rw [mult_by_zero_op s l r (ihl h1) (ihr h2), if_neg h6]

theorem constant_fold_fix (t : Node) (h : NoRedex t) : constant_fold t = .ok t := by
  induction t with
  | num v => rfl
  | var s => rfl
  | op s l r ihl ihr =>
    obtain ⟨h1, h2, h3, h4, h5, h6⟩ := h
    have hAll : NoRedex (Node.op s l r) := ⟨h1, h2, h3, h4, h5, h6⟩
    simp only [constant_fold, ihl h1, ihr h2]
    have hcomp : mult_by_zero (mult_id (add_id (Node.op s l r))) = Node.op s l r := by
      rw [add_id_fix _ hAll, mult_id_fix _ hAll, mult_by_zero_fix _ hAll]
    cases l with
    | num a =>
      cases r with
      | num b => exact absurd ⟨rfl, rfl⟩ h3
      | var s2 => exact congrArg Except.ok hcomp
      | op s2 l2 r2 => exact congrArg Except.ok hcomp
    | var s2 => exact congrArg Except.ok hcomp
    | op s2 l2 r2 => exact congrArg Except.ok hcomp

theorem add_id_op (s : OpSym) (l r : Node)
    (hl : add_id l = l) (hr : add_id r = r) :
    add_id (.op s l r) =
      if s = .add then
        if valEqInt l 0 = true then r
        else if valEqInt r 0 = true then l
        else .op s l r
      else .op s l r :=
  identity_op .add 0 s l r hl hr

theorem mult_id_op (s : OpSym) (l r : Node)
    (hl : mult_id l = l) (hr : mult_id r = r) :
    mult_id (.op s l r) =
      if s = .mul then
        if valEqInt l 1 = true then r
        else if valEqInt r 1 = true then l
        else .op s l r
      else .op s l r :=
  identity_op .mul 1 s l r hl hr

/-- The heart of the fixpoint argument: if both children are already fully
simplified (no redex anywhere) and they are not both number leaves, then
one application of the three identity rules to the operator node yields a
fully simplified tree. -/
theorem idRules_noRedex (s : OpSym) (l r : Node) (hl : NoRedex l) (hr : NoRedex r)
    (hnn : ¬(isNum l = true ∧ isNum r = true)) :
    NoRedex (mult_by_zero (mult_id (add_id (.op s l r)))) := by
  have hal : add_id l = l := add_id_fix l hl
  have har : add_id r = r := add_id_fix r hr
  have hml : mult_id l = l := mult_id_fix l hl
  have hmr : mult_id r = r := mult_id_fix r hr
  have hzl : mult_by_zero l = l := mult_by_zero_fix l hl
  have hzr : mult_by_zero r = r := mult_by_zero_fix r hr
  by_cases hsa : s = OpSym.add
  · subst hsa
    by_cases hl0 : valEqInt l 0 = true
    · rw [add_id_op _ l r hal har, if_pos rfl, if_pos hl0,
        mult_id_fix r hr, mult_by_zero_fix r hr]
      exact hr
    · by_cases hr0 : valEqInt r 0 = true
      · rw [add_id_op _ l r hal har, if_pos rfl, if_neg hl0, if_pos hr0,
          mult_id_fix l hl, mult_by_zero_fix l hl]
        exact hl
      · rw [add_id_op _ l r hal har, if_pos rfl, if_neg hl0, if_neg hr0,
          mult_id_op _ l r hml hmr,
          if_neg (show ¬(OpSym.add = OpSym.mul) from fun hc => OpSym.noConfusion hc),
          mult_by_zero_op _ l r hzl hzr,
          if_neg (show ¬(OpSym.add = OpSym.mul ∧
            (valEqInt l 0 = true ∨ valEqInt r 0 = true)) from
            fun hc => OpSym.noConfusion hc.1)]
        exact ⟨hl, hr, hnn, fun hc => hc.2.elim hl0 hr0,
          fun hc => OpSym.noConfusion hc.1, fun hc => OpSym.noConfusion hc.1⟩
  · have e1 : add_id (Node.op s l r) = Node.op s l r := by
      rw [add_id_op s l r hal har, if_neg hsa]
    rw [e1]
    by_cases hsm : s = OpSym.mul
    · subst hsm
      by_cases hl1 : valEqInt l 1 = true
      · rw [mult_id_op _ l r hml hmr, if_pos rfl, if_pos hl1, mult_by_zero_fix r hr]
        exact hr
      · by_cases hr1 : valEqInt r 1 = true
        · rw [mult_id_op _ l r hml hmr, if_pos rfl, if_neg hl1, if_pos hr1,
            mult_by_zero_fix l hl]
          exact hl
        · rw [mult_id_op _ l r hml hmr, if_pos rfl, if_neg hl1, if_neg hr1,
            mult_by_zero_op _ l r hzl hzr]
          by_cases h0 : OpSym.mul = OpSym.mul ∧
              (valEqInt l 0 = true ∨ valEqInt r 0 = true)
          · rw [if_pos h0]; trivial
          · rw [if_neg h0]
            exact ⟨hl, hr, hnn, fun hc => OpSym.noConfusion hc.1,
              fun hc => hc.2.elim hl1 hr1, h0⟩
    · rw [mult_id_op s l r hml hmr, if_neg hsm, mult_by_zero_op s l r hzl hzr,
        if_neg (fun hc => hsm hc.1)]
      exact ⟨hl, hr, hnn, fun hc => hsa hc.1, fun hc => hsm hc.1, fun hc => hsm hc.1⟩

/-- Whatever `constant_fold` returns successfully is fully simplified. -/
theorem constant_fold_noRedex (t : Node) (u : Node) (h : constant_fold t = .ok u) :
    NoRedex u := by
  induction t generalizing u with
  | num v => simp [constant_fold] at h; rw [← h]; trivial
  | var s => simp [constant_fold] at h; rw [← h]; trivial
  | op s l r ihl ihr =>
    simp only [constant_fold] at h
    split at h
    · exact absurd h (by simp)
    · rename_i l2 hcl
      split at h
      · exact absurd h (by simp)
      · rename_i r2 hcr
        have hl := ihl l2 hcl
        have hr := ihr r2 hcr
        split at h
        · split at h
          · exact absurd h (by simp)
          · simp only [Except.ok.injEq] at h; rw [← h]; trivial
        · rename_i hwild
          simp only [Except.ok.injEq] at h
          rw [← h]
          apply idRules_noRedex s l2 r2 hl hr
          intro hc
          obtain ⟨ha, hb⟩ := hc
          cases l2 with
          | num a =>
            cases r2 with
            | num b => exact hwild a b rfl rfl
            | var s2 => simp [isNum] at hb
            | op s2 x y => simp [isNum] at hb
          | var s2 => simp [isNum] at ha
          | op s2 x y => simp [isNum] at ha

/-- Reference simplification driver, following the spec's words: run
additive identity, multiplicative identity, multiplication by zero, then
constant folding over the whole tree; if the constant-folding pass changed
at least one node, repeat the entire four-rule sequence; terminate when a
full constant-folding pass makes no change.  Termination holds because
every change strictly decreases the node count. -/
def refLoop (t : Node) : Except PyErr Node :=
  match h : constant_fold (mult_by_zero (mult_id (add_id t))) with
  | .error e => .error e
  | .ok u =>
    if hu : u = mult_by_zero (mult_id (add_id t)) then .ok u else refLoop u
termination_by size t
decreasing_by
  have h1 := constant_fold_size (mult_by_zero (mult_id (add_id t))) u h
  have h2 := idRules_size t
  unfold idRules at h2
  rcases h1.2 with he | hlt
  · exact absurd he hu
  · omega

theorem refLoop_fix (u : Node) (hnr : NoRedex u) : refLoop u = .ok u := by
  have e1 : mult_by_zero (mult_id (add_id u)) = u := by
    rw [add_id_fix u hnr, mult_id_fix u hnr, mult_by_zero_fix u hnr]
  have hcf : constant_fold (mult_by_zero (mult_id (add_id u))) = .ok u := by
    rw [e1]; exact constant_fold_fix u hnr
  rw [refLoop]
  split
  · rename_i e heq2
    rw [hcf] at heq2
    exact absurd heq2 (by simp)
  · rename_i u2 heq2
    rw [hcf] at heq2
    simp only [Except.ok.injEq] at heq2
    subst heq2
    rw [dif_pos e1.symm]

theorem simplify_binops_eq_refLoop_aux (t : Node) :
    simplify_binops t = refLoop t := by
  rw [refLoop]
  split
  · rename_i e heq
    exact heq
  · rename_i u heq
    split
    · rename_i hu
      exact heq
    · rename_i hu
      have hnr : NoRedex u := constant_fold_noRedex _ u heq
      rw [refLoop_fix u hnr]
      exact heq

theorem simplify_binops_noRedex (t u : Node) (h : simplify_binops t = .ok u) :
    NoRedex u := by
  have h' : constant_fold (mult_by_zero (mult_id (add_id t))) = .ok u := h
  exact constant_fold_noRedex _ u h'

theorem simplify_binops_idem_aux (t u : Node) (h : simplify_binops t = .ok u) :
    simplify_binops u = .ok u := by
  have hnr : NoRedex u := simplify_binops_noRedex t u h
  show constant_fold (mult_by_zero (mult_id (add_id u))) = .ok u
  rw [add_id_fix u hnr, mult_id_fix u hnr, mult_by_zero_fix u hnr]
  exact constant_fold_fix u hnr

/-- Value of a little-endian digit list. -/
def ofDigitsLE : List Nat → Nat
  | [] => 0
  | d :: ds => d + 10 * ofDigitsLE ds

theorem charVal_digitChar (d : Nat) (h : d < 10) : charVal (digitChar d) = d := by
  interval_cases d <;> rfl

theorem pyDigit_digitChar (d : Nat) (h : d < 10) : pyDigit (digitChar d) = true := by
  interval_cases d <;> rfl

theorem natDigitsRev_spec (fuel : Nat) : ∀ m : Nat, m ≤ fuel →
    ofDigitsLE (natDigitsRev fuel m) = m ∧
      (∀ d ∈ natDigitsRev fuel m, d < 10) ∧
      (m ≠ 0 → natDigitsRev fuel m ≠ []) := by
  induction fuel with
  | zero =>
    intro m hm
    have hm0 : m = 0 := by omega
    subst hm0
    simp [natDigitsRev, ofDigitsLE]
  | succ f ih =>
    intro m hm
    by_cases hm0 : m = 0
    · subst hm0; simp [natDigitsRev, ofDigitsLE]
    · have hdiv : m / 10 ≤ f := by omega
      obtain ⟨ih1, ih2, ih3⟩ := ih (m / 10) hdiv
      simp only [natDigitsRev, if_neg hm0]
      refine ⟨?_, ?_, ?_⟩
      · simp only [ofDigitsLE, ih1]; omega
      · intro d hd
        rcases List.mem_cons.mp hd with he | hmem
        · subst he; omega
        · exact ih2 d hmem
      · intro _; simp

theorem foldl_base10_reverse (L : List Nat) (A : Nat) :
    List.foldl (fun a d => 10 * a + d) A L.reverse =
      A * 10 ^ L.length + ofDigitsLE L := by
  induction L generalizing A with
  | nil => simp [ofDigitsLE]
  | cons d ds ih =>
    simp only [List.reverse_cons, List.foldl_append, List.foldl_cons,
      List.foldl_nil, ih, ofDigitsLE, List.length_cons]
    ring

theorem foldl_charVal_map (B : List Nat) (A : Nat) (hB : ∀ d ∈ B, d < 10) :
    List.foldl (fun a c => 10 * a + charVal c) A (B.map digitChar) =
      List.foldl (fun a d => 10 * a + d) A B := by
  induction B generalizing A with
  | nil => simp
  | cons d ds ih =>
    simp only [List.map_cons, List.foldl_cons]
    rw [charVal_digitChar d (hB d (by simp))]
    exact ih _ (fun x hx => hB x (by simp [hx]))

theorem decodeNat_natRepr (m : Nat) : decodeNat (natRepr m) = m := by
  unfold natRepr
  by_cases hm : m = 0
  · subst hm; rfl
  · rw [if_neg hm]
    obtain ⟨h1, h2, h3⟩ := natDigitsRev_spec m m le_rfl
    unfold decodeNat
    rw [foldl_charVal_map (natToDigits m).reverse 0
      (fun d hd => h2 d (List.mem_reverse.mp hd))]
    rw [foldl_base10_reverse]
    simpa using h1

theorem natRepr_digits (m : Nat) : ∀ c ∈ natRepr m, pyDigit c = true := by
  unfold natRepr
  by_cases hm : m = 0
  · subst hm; intro c hc; simp at hc; subst hc; rfl
  · rw [if_neg hm]
    intro c hc
    rw [List.mem_map] at hc
    obtain ⟨d, hd, he⟩ := hc
    obtain ⟨h1, h2, h3⟩ := natDigitsRev_spec m m le_rfl
    rw [← he]
    exact pyDigit_digitChar d (h2 d (List.mem_reverse.mp hd))

theorem natRepr_ne_nil (m : Nat) : natRepr m ≠ [] := by
  unfold natRepr
  by_cases hm : m = 0
  · subst hm; simp
  · rw [if_neg hm]
    obtain ⟨h1, h2, h3⟩ := natDigitsRev_spec m m le_rfl
    simp [natToDigits, h3 hm]

theorem pyIsNumeric_natRepr (m : Nat) : pyIsNumeric (natRepr m) = true := by
  unfold pyIsNumeric
  have h2 := natRepr_digits m
  cases hrep : natRepr m with
  | nil => exact absurd hrep (natRepr_ne_nil m)
  | cons c rest =>
    rw [hrep] at h2
    simp only [List.isEmpty_cons, Bool.not_false, Bool.true_and, List.all_eq_true]
    exact h2

theorem pyDigit_ne (c x : Char) (h : pyDigit c = true) (hx : pyDigit x = false) :
    c ≠ x := by
  intro he; subst he; rw [h] at hx; cases hx

theorem pyInt_intRepr (n : Int) : pyInt (intRepr n) = some n := by
  unfold intRepr
  by_cases hn : n < 0
  · rw [if_pos hn]
    simp only [pyInt, if_pos rfl]
    rw [if_pos (of_eq_true (eq_true (pyIsNumeric_natRepr (-n).toNat))),
      decodeNat_natRepr]
    have he : ((-n).toNat : Int) = -n := Int.toNat_of_nonneg (by omega)
    rw [he]
    simp
  · rw [if_neg hn]
    cases hrep : natRepr n.toNat with
    | nil => exact absurd hrep (natRepr_ne_nil _)
    | cons c rest =>
      have hc : pyDigit c = true := natRepr_digits _ c (by rw [hrep]; simp)
      simp only [pyInt]
      rw [if_neg (pyDigit_ne c '-' hc (by rfl)), if_neg (pyDigit_ne c '+' hc (by rfl)),
        ← hrep, if_pos (of_eq_true (eq_true (pyIsNumeric_natRepr n.toNat))),
        decodeNat_natRepr]
      have he : (n.toNat : Int) = n := Int.toNat_of_nonneg (by omega)
      rw [he]

theorem lstripMinus_intRepr (n : Int) :
    lstripMinus (intRepr n) = natRepr n.natAbs := by
  unfold intRepr lstripMinus
  by_cases hn : n < 0
  · rw [if_pos hn, List.dropWhile_cons, if_pos (by simp)]
    cases hrep : natRepr (-n).toNat with
    | nil => exact absurd hrep (natRepr_ne_nil _)
    | cons c rest =>
      have hc : pyDigit c = true := natRepr_digits _ c (by rw [hrep]; simp)
      have hcne : c ≠ '-' := pyDigit_ne c '-' hc (by rfl)
      rw [List.dropWhile_cons, if_neg (by simp [hcne]), ← hrep]
      congr 1
      omega
  · rw [if_neg hn]
    cases hrep : natRepr n.toNat with
    | nil => exact absurd hrep (natRepr_ne_nil _)
    | cons c rest =>
      have hc : pyDigit c = true := natRepr_digits _ c (by rw [hrep]; simp)
      have hcne : c ≠ '-' := pyDigit_ne c '-' hc (by rfl)
      rw [List.dropWhile_cons, if_neg (by simp [hcne]), ← hrep]
      congr 1
      omega

theorem pyIsNumeric_lstrip_intRepr (n : Int) :
    pyIsNumeric (lstripMinus (intRepr n)) = true := by
  rw [lstripMinus_intRepr]
  exact pyIsNumeric_natRepr n.natAbs

theorem notSpace_of_ne (c : Char) (h : c ≠ ' ') : notSpace c = true := by
  simp [notSpace]
  exact h

theorem ne_space_of_notSpace (c : Char) (h : notSpace c = true) : ¬(c = ' ') := by
  simpa [notSpace] using h

theorem takeWhile_all_notSpace (x : Str) (hx : ∀ c ∈ x, notSpace c = true) :
    List.takeWhile notSpace x = x ∧ List.dropWhile notSpace x = [] := by
  induction x with
  | nil => simp
  | cons c cs ih =>
    have hc := hx c (by simp)
    obtain ⟨ih1, ih2⟩ := ih (fun d hd => hx d (by simp [hd]))
    simp [List.takeWhile_cons, List.dropWhile_cons, hc, ih1, ih2]

theorem takeWhile_notSpace_append (x J : Str) (hx : ∀ c ∈ x, notSpace c = true) :
    List.takeWhile notSpace (x ++ ' ' :: J) = x ∧
      List.dropWhile notSpace (x ++ ' ' :: J) = ' ' :: J := by
  induction x with
  | nil => simp [List.takeWhile_cons, List.dropWhile_cons, notSpace]
  | cons c cs ih =>
    have hc := hx c (by simp)
    obtain ⟨ih1, ih2⟩ := ih (fun d hd => hx d (by simp [hd]))
    simp [List.takeWhile_cons, List.dropWhile_cons, hc, ih1, ih2]

theorem joinSp_cons (x : Str) (ys : List Str) (hy : ys ≠ []) :
    joinSp (x :: ys) = x ++ ' ' :: joinSp ys := by
  cases ys with
  | nil => exact absurd rfl hy
  | cons y ys2 => rfl

theorem joinSp_append (xs ys : List Str) (hx : xs ≠ []) (hy : ys ≠ []) :
    joinSp (xs ++ ys) = joinSp xs ++ ' ' :: joinSp ys := by
  induction xs with
  | nil => exact absurd rfl hx
  | cons x xs2 ih =>
    cases xs2 with
    | nil =>
      cases ys with
      | nil => exact absurd rfl hy
      | cons y ys2 => rfl
    | cons x2 xs3 =>
      have ih2 := ih (by simp)
      have e1 : (x :: x2 :: xs3) ++ ys = x :: ((x2 :: xs3) ++ ys) := rfl
      rw [e1, joinSp_cons x ((x2 :: xs3) ++ ys) (by simp),
        joinSp_cons x (x2 :: xs3) (by simp), ih2]
      simp [List.append_assoc]

theorem pySplitF_single (x : Str) (fuel : Nat) (hne : x ≠ [])
    (hns : ∀ c ∈ x, notSpace c = true) (hf : x.length ≤ fuel) :
    pySplitF fuel x = [x] := by
  cases x with
  | nil => exact absurd rfl hne
  | cons c cs =>
    cases fuel with
    | zero => simp only [List.length_cons] at hf; omega
    | succ f =>
      have hc := hns c (by simp)
      have hcne : ¬(c = ' ') := ne_space_of_notSpace c hc
      simp only [pySplitF]
      rw [if_neg hcne, (takeWhile_all_notSpace (c :: cs) hns).1,
        (takeWhile_all_notSpace (c :: cs) hns).2]
      cases f <;> rfl

theorem pySplitF_join (toks : List Str) : ∀ fuel : Nat,
    (∀ x ∈ toks, x ≠ [] ∧ ∀ c ∈ x, notSpace c = true) →
    (joinSp toks).length ≤ fuel →
    pySplitF fuel (joinSp toks) = toks := by
  induction toks with
  | nil => intro fuel h hf; cases fuel <;> rfl
  | cons x ys ih =>
    intro fuel h hf
    obtain ⟨hxne, hxns⟩ := h x (by simp)
    cases ys with
    | nil => exact pySplitF_single x fuel hxne hxns hf
    | cons y ys2 =>
      rw [joinSp_cons x (y :: ys2) (by simp)] at hf ⊢
      cases x with
      | nil => exact absurd rfl hxne
      | cons c cs =>
        have hc : notSpace c = true := hxns c (by simp)
        have hcne : ¬(c = ' ') := ne_space_of_notSpace c hc
        cases fuel with
        | zero => simp only [List.cons_append, List.length_cons] at hf; omega
        | succ f =>
          simp only [List.cons_append, pySplitF]
          rw [if_neg hcne]
          simp only [List.append_eq]
          rw [← List.cons_append,
            (takeWhile_notSpace_append (c :: cs) (joinSp (y :: ys2)) hxns).1,
            (takeWhile_notSpace_append (c :: cs) (joinSp (y :: ys2)) hxns).2]
          cases f with
          | zero =>
            simp only [List.cons_append, List.length_cons, List.length_append] at hf
            omega
          | succ f2 =>
            have hrec : pySplitF (f2 + 1) (' ' :: joinSp (y :: ys2)) =
                pySplitF f2 (joinSp (y :: ys2)) := by
              simp [pySplitF]
            rw [hrec, ih f2 (fun z hz => h z (by simp [hz]))
              (by simp only [List.cons_append, List.length_cons,
                List.length_append] at hf; omega)]

theorem pyDigit_notSpace (c : Char) (h : pyDigit c = true) : notSpace c = true :=
  notSpace_of_ne c (pyDigit_ne c ' ' h (by rfl))

theorem pyAlphaChar_ne (c x : Char) (h : pyAlphaChar c = true)
    (hx : pyAlphaChar x = false) : c ≠ x := by
  intro he; subst he; rw [h] at hx; cases hx

theorem intRepr_ne_nil (n : Int) : intRepr n ≠ [] := by
  unfold intRepr
  split
  · simp
  · exact natRepr_ne_nil _

theorem intRepr_notSpace (n : Int) : ∀ c ∈ intRepr n, notSpace c = true := by
  unfold intRepr
  split
  · intro c hc
    rcases List.mem_cons.mp hc with he | hm
    · subst he; rfl
    · exact pyDigit_notSpace c (natRepr_digits _ c hm)
  · intro c hc
    exact pyDigit_notSpace c (natRepr_digits _ c hc)

theorem pyIsAlpha_chars (s : Str) (h : pyIsAlpha s = true) :
    ∀ c ∈ s, pyAlphaChar c = true := by
  unfold pyIsAlpha at h
  simp only [Bool.and_eq_true, List.all_eq_true] at h
  exact h.2

theorem pyIsAlpha_ne_nil (s : Str) (h : pyIsAlpha s = true) : s ≠ [] := by
  intro he; subst he; simp [pyIsAlpha] at h

theorem pyIsAlpha_notSpace (s : Str) (h : pyIsAlpha s = true) :
    ∀ c ∈ s, notSpace c = true := fun c hc =>
  notSpace_of_ne c (pyAlphaChar_ne c ' ' (pyIsAlpha_chars s h c hc) (by rfl))

theorem pyIsAlpha_lstrip (s : Str) (h : pyIsAlpha s = true) : lstripMinus s = s := by
  cases s with
  | nil => rfl
  | cons c cs =>
    have h2 : pyAlphaChar c = true := pyIsAlpha_chars _ h c (by simp)
    unfold lstripMinus
    rw [List.dropWhile_cons, if_neg (by simp [pyAlphaChar_ne c '-' h2 (by rfl)])]

theorem pyDigit_of_alpha (c : Char) (h2 : pyAlphaChar c = true) :
    pyDigit c = false := by
  cases hd : pyDigit c with
  | false => rfl
  | true =>
    exfalso
    unfold pyDigit at hd
    unfold pyAlphaChar at h2
    simp only [Bool.or_eq_true, Bool.and_eq_true, decide_eq_true_eq] at hd h2
    omega

theorem pyIsAlpha_not_numeric (s : Str) (h : pyIsAlpha s = true) :
    pyIsNumeric s = false := by
  cases s with
  | nil => simp [pyIsAlpha] at h
  | cons c cs =>
    have h2 : pyAlphaChar c = true := pyIsAlpha_chars _ h c (by simp)
    unfold pyIsNumeric
    simp [List.all_cons, pyDigit_of_alpha c h2]

theorem opSym_not_numeric (s : OpSym) :
    pyIsNumeric (lstripMinus (OpSym.toStr s)) = false := by
  cases s <;> rfl

theorem opSym_not_alpha (s : OpSym) : pyIsAlpha (OpSym.toStr s) = false := by
  cases s <;> rfl

theorem opSym_notSpace (s : OpSym) : ∀ c ∈ OpSym.toStr s, notSpace c = true := by
  cases s <;> decide

theorem opSym_ne_nil (s : OpSym) : OpSym.toStr s ≠ [] := by
  cases s <;> simp [OpSym.toStr]

theorem tokens_ne_nil (t : Node) : tokens t ≠ [] := by
  cases t <;> simp [tokens]

theorem tokens_ok (t : Node) (h : wf t = true) :
    ∀ x ∈ tokens t, x ≠ [] ∧ ∀ c ∈ x, notSpace c = true := by
  induction t with
  | num v =>
    intro x hx
    simp only [tokens, List.mem_singleton] at hx
    subst hx
    exact ⟨intRepr_ne_nil v, intRepr_notSpace v⟩
  | var s =>
    intro x hx
    simp only [tokens, List.mem_singleton] at hx
    rw [hx]
    exact ⟨pyIsAlpha_ne_nil s h, pyIsAlpha_notSpace s h⟩
  | op s l r ihl ihr =>
    have hw : wf l = true ∧ wf r = true := by
      simpa [wf, Bool.and_eq_true] using h
    intro x hx
    simp only [tokens, List.mem_cons, List.mem_append] at hx
    rcases hx with he | hl2 | hr2
    · subst he; exact ⟨opSym_ne_nil s, opSym_notSpace s⟩
    · exact ihl hw.1 x hl2
    · exact ihr hw.2 x hr2

theorem prefix_str_eq_joinSp (t : Node) : prefix_str t = joinSp (tokens t) := by
  induction t with
  | num v => rfl
  | var s => rfl
  | op s l r ihl ihr =>
    simp only [prefix_str, tokens]
    rw [joinSp_cons _ _ (fun he => (tokens_ne_nil l) (List.append_eq_nil.mp he).1),
      joinSp_append _ _ (tokens_ne_nil l) (tokens_ne_nil r), ← ihl, ← ihr]
    simp [List.cons_append, List.append_assoc]

theorem parseF_tokens (t : Node) : ∀ (rest : List Str) (fuel : Nat),
    wf t = true → (tokens t ++ rest).length ≤ fuel →
    parseF fuel (tokens t ++ rest) = .ok (toRaw t, rest) := by
  induction t with
  | num v =>
    intro rest fuel hwf hf
    cases fuel with
    | zero =>
      simp only [tokens, List.singleton_append, List.length_cons] at hf
      omega
    | succ f =>
      show parseF (f + 1) (intRepr v :: rest) = .ok (toRaw (Node.num v), rest)
      simp [parseF, pyIsNumeric_lstrip_intRepr, pyInt_intRepr, toRaw]
  | var s =>
    intro rest fuel hwf hf
    cases fuel with
    | zero =>
      simp only [tokens, List.singleton_append, List.length_cons] at hf
      omega
    | succ f =>
      show parseF (f + 1) (s :: rest) = .ok (toRaw (Node.var s), rest)
      have hwfs : pyIsAlpha s = true := hwf
      simp [parseF, pyIsAlpha_lstrip s hwfs, pyIsAlpha_not_numeric s hwfs,
        hwfs, toRaw]
  | op s l r ihl ihr =>
    intro rest fuel hwf hf
    have hw : wf l = true ∧ wf r = true := by
      simpa [wf, Bool.and_eq_true] using hwf
    have hshape : tokens (Node.op s l r) ++ rest =
        OpSym.toStr s :: (tokens l ++ (tokens r ++ rest)) := by
      simp [tokens, List.cons_append, List.append_assoc]
    rw [hshape] at hf ⊢
    cases fuel with
    | zero =>
      simp only [List.length_cons] at hf
      omega
    | succ f =>
      have hlen : (tokens l ++ (tokens r ++ rest)).length ≤ f := by
        simp only [List.length_cons] at hf
        omega
      have hlen2 : (tokens r ++ rest).length ≤ f := by
        simp only [List.length_append] at hlen ⊢
        omega
      simp only [parseF]
      rw [if_neg (by simp [opSym_not_numeric s]),
        if_neg (by simp [opSym_not_alpha s])]
      simp only [ihl (tokens r ++ rest) f hw.1 hlen, ihr rest f hw.2 hlen2, toRaw]

theorem rawPrefix_toRaw (t : Node) : rawPrefix (toRaw t) = .ok (prefix_str t) := by
  induction t with
  | num v => rfl
  | var s => rfl
  | op s l r ihl ihr =>
    simp only [toRaw, rawPrefix, ihl, ihr, prefix_str]

theorem parseF_consume : ∀ (fuel : Nat) (toks : List Str) (n : RawNode)
    (rest : List Str), parseF fuel toks = .ok (n, rest) →
    rest.length ≤ toks.length := by
  intro fuel
  induction fuel with
  | zero =>
    intro toks n rest h
    cases toks with
    | nil =>
      simp only [parseF, Except.ok.injEq, Prod.mk.injEq] at h
      rw [← h.2]
    | cons t r0 => exact absurd h (by simp [parseF])
  | succ f ih =>
    intro toks n rest h
    cases toks with
    | nil =>
      simp only [parseF, Except.ok.injEq, Prod.mk.injEq] at h
      rw [← h.2]
    | cons t r0 =>
      simp only [parseF] at h
      by_cases hnum : pyIsNumeric (lstripMinus t) = true
      · rw [if_pos hnum] at h
        cases hpi : pyInt t with
        | some n2 =>
          rw [hpi] at h
          simp only [Except.ok.injEq, Prod.mk.injEq] at h
          rw [← h.2]
          simp
        | none => rw [hpi] at h; exact absurd h (by simp)
      · rw [if_neg hnum] at h
        by_cases halpha : pyIsAlpha t = true
        · rw [if_pos halpha] at h
          simp only [Except.ok.injEq, Prod.mk.injEq] at h
          rw [← h.2]
          simp
        · rw [if_neg halpha] at h
          cases hp1 : parseF f r0 with
          | error e => rw [hp1] at h; exact absurd h (by simp)
          | ok pr =>
            obtain ⟨l, rest1⟩ := pr
            rw [hp1] at h
            simp only [] at h
            cases hp2 : parseF f rest1 with
            | error e => rw [hp2] at h; exact absurd h (by simp)
            | ok pr2 =>
              obtain ⟨r, rest2⟩ := pr2
              rw [hp2] at h
              simp only [Except.ok.injEq, Prod.mk.injEq] at h
              have hc1 := ih r0 l rest1 hp1
              have hc2 := ih rest1 r rest2 hp2
              rw [← h.2]
              simp only [List.length_cons]
              omega

theorem parseF_mono : ∀ (f1 : Nat) (toks : List Str) (f2 : Nat),
    toks.length ≤ f1 → toks.length ≤ f2 → parseF f1 toks = parseF f2 toks := by
  intro f1
  induction f1 with
  | zero =>
    intro toks f2 h1 h2
    cases toks with
    | nil => cases f2 <;> rfl
    | cons t r0 => simp only [List.length_cons] at h1; omega
  | succ g1 ih =>
    intro toks f2 h1 h2
    cases toks with
    | nil => cases f2 <;> rfl
    | cons t r0 =>
      cases f2 with
      | zero => simp only [List.length_cons] at h2; omega
      | succ g2 =>
        have hr0 : r0.length ≤ g1 := by simp only [List.length_cons] at h1; omega
        have hr0g : r0.length ≤ g2 := by simp only [List.length_cons] at h2; omega
        by_cases hnum : pyIsNumeric (lstripMinus t) = true
        · simp [parseF, hnum]
        · by_cases halpha : pyIsAlpha t = true
          · simp [parseF, hnum, halpha]
          · simp only [parseF, if_neg hnum, if_neg halpha]
            rw [ih r0 g2 hr0 hr0g]
            cases hp : parseF g2 r0 with
            | error e => rfl
            | ok pr =>
              obtain ⟨l, rest1⟩ := pr
              have hc1 : rest1.length ≤ r0.length := parseF_consume g2 r0 l rest1 hp
              simp only []
              rw [ih rest1 g2 (by omega) (by omega)]

theorem parse_cons_op (t : Str) (rest : List Str)
    (hnum : pyIsNumeric (lstripMinus t) = false) (halpha : pyIsAlpha t = false)
    (l : RawNode) (rest1 : List Str) (r : RawNode) (rest2 : List Str)
    (h1 : parse rest = .ok (l, rest1)) (h2 : parse rest1 = .ok (r, rest2)) :
    parse (t :: rest) = .ok (.opr t l r, rest2) := by
  have h1' : parseF rest.length rest = .ok (l, rest1) := h1
  have h2' : parseF rest1.length rest1 = .ok (r, rest2) := h2
  have hc1 : rest1.length ≤ rest.length := parseF_consume rest.length rest l rest1 h1'
  have hn2 : ¬(pyIsNumeric (lstripMinus t) = true) := by simp [hnum]
  have ha2 : ¬(pyIsAlpha t = true) := by simp [halpha]
  show parseF (t :: rest).length (t :: rest) = _
  simp only [List.length_cons, parseF]
  rw [if_neg hn2, if_neg ha2, h1']
  simp only []
  rw [parseF_mono rest.length rest1 rest1.length hc1 le_rfl, h2']

theorem valEqInt_eq_num (x : Node) (m : Int) : valEqInt x m = true ↔ x = .num m := by
  cases x <;> simp [valEqInt]

/-- C1: for every well-formed tree, the implemented `simplify_binops`
(one pass of additive identity, multiplicative identity, multiplication by
zero, constant folding) produces exactly the result of the reference
fixpoint iteration `refLoop`, which repeats the four-rule sequence until a
full constant-folding pass makes no change. -/
theorem claim_C1_simplify_refines_fixpoint :
    ∀ t : Node, simplify_binops t = refLoop t :=
  simplify_binops_eq_refLoop_aux

/-- C2: simplification is idempotent: whenever `simplify_binops` succeeds
on `t` with result `u`, running it again on `u` succeeds and the
prefix-string rendering is unchanged. -/
theorem claim_C2_simplify_idempotent :
    ∀ t u : Node, simplify_binops t = .ok u →
      ∃ v : Node, simplify_binops u = .ok v ∧ prefix_str v = prefix_str u :=
  fun t u h => ⟨u, simplify_binops_idem_aux t u h, rfl⟩

theorem claim_C2_witness :
    ∃ v : Node, simplify_binops (Node.var ['x']) = .ok v ∧
      prefix_str v = prefix_str (Node.var ['x']) :=
  claim_C2_simplify_idempotent (Node.op .add (Node.var ['x']) (Node.num 0))
    (Node.var ['x']) (by rfl)

/-- C3 counterexample: on an exhausted token sequence the parser does not
fail at all: the empty list parses to the degenerate field-less node with
no error, and an operator token whose right operand cannot obtain a token
still returns a partial tree containing such a node. -/
theorem claim_C3_counterexample :
    parse [] = .ok (.empty, []) ∧
      parse [['+'], ['1']] = .ok (.opr ['+'] (.num 1) .empty, []) :=
  ⟨rfl, rfl⟩

/-- C3 amended: when the token sequence is exhausted where an operand is
required, the constructor raises nothing: it returns an object with no
fields set (`RawNode.empty`), so the empty sequence parses to a bare empty
node and an operator token with no operands parses to a partial tree with
empty children. -/
theorem claim_C3_amended :
    parse [] = .ok (.empty, []) ∧
      ∀ t : Str, pyIsNumeric (lstripMinus t) = false → pyIsAlpha t = false →
        parse [t] = .ok (.opr t .empty .empty, []) := by
  refine ⟨rfl, fun t h1 h2 => ?_⟩
  show parseF 1 [t] = _
  simp only [parseF]
  rw [if_neg (by simp [h1]), if_neg (by simp [h2])]

theorem claim_C3_witness :
    parse [['+']] = .ok (.opr ['+'] .empty .empty, []) :=
  claim_C3_amended.2 ['+'] (by rfl) (by rfl)

/-- C4: folding a `/` or `%` node whose folded divisor child is the
numeric leaf 0 is fatal: `constant_fold` propagates `ZeroDivisionError`,
and in particular parsing the split of `"/ 5 0"` and simplifying raises
the error rather than returning any numeric result. -/
theorem claim_C4_division_by_zero_fatal :
    ∀ (a : Int) (l r : Node),
      (constant_fold l = .ok (.num a) → constant_fold r = .ok (.num 0) →
        constant_fold (.op .div l r) = .error .zeroDivisionError ∧
          constant_fold (.op .mod l r) = .error .zeroDivisionError) ∧
      parse (pySplit ['/', ' ', '5', ' ', '0']) =
        .ok (.opr ['/'] (.num 5) (.num 0), []) ∧
      simplify_binops (.op .div (.num 5) (.num 0)) = .error .zeroDivisionError := by
  intro a l r
  refine ⟨fun h1 h2 => ⟨?_, ?_⟩, rfl, rfl⟩
  · simp only [constant_fold]
    rw [h1]
    simp only []
    rw [h2]
    simp [evaluate]
  · simp only [constant_fold]
    rw [h1]
    simp only []
    rw [h2]
    simp [evaluate]

theorem claim_C4_witness :
    constant_fold (.op .div (.num 5) (.num 0)) = .error .zeroDivisionError ∧
      constant_fold (.op .mod (.num 5) (.num 0)) = .error .zeroDivisionError :=
  (claim_C4_division_by_zero_fatal 5 (.num 5) (.num 0)).1 rfl rfl

/-- C5: folding an operator node over number leaves `a` and `b` yields
exactly `a + b`, `a - b`, `a * b` for `+`, `-`, `*`; for `/` and `%` with
`b ≠ 0` it yields floor division and floor modulo (which satisfy
`fmod + b * fdiv = a`), e.g. folding `/` on `-7` and `2` gives `-4` and
folding `%` on `-7` and `2` gives `1`. -/
theorem claim_C5_arithmetic :
    ∀ a b : Int,
      constant_fold (.op .add (.num a) (.num b)) = .ok (.num (a + b)) ∧
      constant_fold (.op .sub (.num a) (.num b)) = .ok (.num (a - b)) ∧
      constant_fold (.op .mul (.num a) (.num b)) = .ok (.num (a * b)) ∧
      (b ≠ 0 →
        constant_fold (.op .div (.num a) (.num b)) = .ok (.num (Int.fdiv a b)) ∧
        constant_fold (.op .mod (.num a) (.num b)) = .ok (.num (Int.fmod a b)) ∧
        Int.fmod a b + b * Int.fdiv a b = a) ∧
      constant_fold (.op .div (.num (-7)) (.num 2)) = .ok (.num (-4)) ∧
      constant_fold (.op .mod (.num (-7)) (.num 2)) = .ok (.num 1) := by
  intro a b
  refine ⟨rfl, rfl, rfl, fun hb => ⟨?_, ?_, Int.fmod_add_fdiv a b⟩, by rfl, by rfl⟩
  · simp only [constant_fold, evaluate]
    rw [if_neg hb]
  · simp only [constant_fold, evaluate]
    rw [if_neg hb]

theorem claim_C5_witness :
    constant_fold (.op .div (.num (-7)) (.num 2)) = .ok (.num (Int.fdiv (-7) 2)) ∧
      constant_fold (.op .mod (.num (-7)) (.num 2)) = .ok (.num (Int.fmod (-7) 2)) ∧
      Int.fmod (-7) 2 + 2 * Int.fdiv (-7) 2 = -7 :=
  (claim_C5_arithmetic (-7) 2).2.2.2.1 (by decide)

/-- C6: round-trip: for every well-formed tree `t`, parsing the
whitespace-split token list of `t`'s prefix rendering succeeds, consumes
everything, and produces a tree whose prefix rendering equals that of
`t`. -/
theorem claim_C6_round_trip :
    ∀ t : Node, wf t = true →
      ∃ u : RawNode, parse (pySplit (prefix_str t)) = .ok (u, []) ∧
        rawPrefix u = .ok (prefix_str t) := by
  intro t h
  have h1 : pySplit (prefix_str t) = tokens t := by
    unfold pySplit
    rw [prefix_str_eq_joinSp]
    exact pySplitF_join (tokens t) _ (tokens_ok t h) le_rfl
  refine ⟨toRaw t, ?_, rawPrefix_toRaw t⟩
  rw [h1]
  show parseF (tokens t).length (tokens t) = _
  have h2 := parseF_tokens t [] (tokens t).length h (by simp)
  simpa using h2

theorem claim_C6_witness :
    ∃ u : RawNode,
      parse (pySplit (prefix_str (Node.op .add (.var ['x']) (.num (-12))))) =
        .ok (u, []) ∧
      rawPrefix u = .ok (prefix_str (Node.op .add (.var ['x']) (.num (-12)))) :=
  claim_C6_round_trip (Node.op .add (.var ['x']) (.num (-12))) (by rfl)

/-- C7: `identity(op, e)` recurses into both children first, then replaces
an operator node whose symbol equals `op` and one of whose (recursively
processed) children is the number leaf `e` entirely with the other child's
processed contents: a left match takes the right child (checked first, so
it wins when both match), a right match takes the left child; otherwise
the node keeps its symbol and processed children, and a node with a
different symbol is never replaced. -/
theorem claim_C7_identity_elimination :
    ∀ (o : OpSym) (m : Int) (s : OpSym) (l r : Node),
      (identity o m l = .num m →
        identity o m (.op o l r) = identity o m r) ∧
      (identity o m l ≠ .num m → identity o m r = .num m →
        identity o m (.op o l r) = identity o m l) ∧
      (identity o m l ≠ .num m → identity o m r ≠ .num m →
        identity o m (.op o l r) = .op o (identity o m l) (identity o m r)) ∧
      (s ≠ o →
        identity o m (.op s l r) = .op s (identity o m l) (identity o m r)) := by
  intro o m s l r
  refine ⟨fun h1 => ?_, fun h1 h2 => ?_, fun h1 h2 => ?_, fun hs => ?_⟩
  · simp only [identity, if_true]
    rw [if_pos ((valEqInt_eq_num _ _).mpr h1)]
  · simp only [identity, if_true]
    rw [if_neg (fun hc => h1 ((valEqInt_eq_num _ _).mp hc)),
      if_pos ((valEqInt_eq_num _ _).mpr h2)]
  · simp only [identity, if_true]
    rw [if_neg (fun hc => h1 ((valEqInt_eq_num _ _).mp hc)),
      if_neg (fun hc => h2 ((valEqInt_eq_num _ _).mp hc))]
  · simp only [identity]
    rw [if_neg hs]

theorem claim_C7_witness :
    identity .add 0 (.op .add (.num 0) (.var ['x'])) =
        identity .add 0 (.var ['x']) ∧
      identity .mul 1 (.op .mul (.var ['x']) (.num 1)) =
        identity .mul 1 (.var ['x']) ∧
      identity .add 0 (.op .mul (.num 0) (.var ['x'])) =
        .op .mul (identity .add 0 (.num 0)) (identity .add 0 (.var ['x'])) :=
  ⟨(claim_C7_identity_elimination .add 0 .add (.num 0) (.var ['x'])).1 rfl,
    ((claim_C7_identity_elimination .mul 1 .mul (.var ['x']) (.num 1)).2.1
      (by decide) rfl),
    ((claim_C7_identity_elimination .add 0 .mul (.num 0) (.var ['x'])).2.2.2
      (by decide))⟩

/-- C8: `mult_by_zero` recurses into both children first and replaces a
`*` node either of whose processed children is the number leaf 0 with a
fresh `Number(0)` leaf, discarding both children (and only such nodes);
consequently both `"* x 0"` and `"* 0 x"` parse and simplify to a tree
whose prefix rendering is `"0"`. -/
theorem claim_C8_mult_by_zero :
    ∀ l r : Node,
      (mult_by_zero l = .num 0 ∨ mult_by_zero r = .num 0 →
        mult_by_zero (.op .mul l r) = .num 0) ∧
      (¬(mult_by_zero l = .num 0 ∨ mult_by_zero r = .num 0) →
        mult_by_zero (.op .mul l r) =
          .op .mul (mult_by_zero l) (mult_by_zero r)) ∧
      parse (pySplit ['*', ' ', 'x', ' ', '0']) =
        .ok (.opr ['*'] (.var ['x']) (.num 0), []) ∧
      parse (pySplit ['*', ' ', '0', ' ', 'x']) =
        .ok (.opr ['*'] (.num 0) (.var ['x']), []) ∧
      simplify_binops (.op .mul (.var ['x']) (.num 0)) = .ok (.num 0) ∧
      simplify_binops (.op .mul (.num 0) (.var ['x'])) = .ok (.num 0) ∧
      prefix_str (Node.num 0) = ['0'] := by
  intro l r
  refine ⟨fun h => ?_, fun h => ?_, rfl, rfl, rfl, rfl, rfl⟩
  · simp only [mult_by_zero]
    rw [if_pos]
    exact ⟨trivial, h.imp (fun h2 => (valEqInt_eq_num _ _).mpr h2)
      (fun h2 => (valEqInt_eq_num _ _).mpr h2)⟩
  · simp only [mult_by_zero]
    rw [if_neg]
    intro hc
    exact h (hc.2.imp (fun h2 => (valEqInt_eq_num _ _).mp h2)
      (fun h2 => (valEqInt_eq_num _ _).mp h2))

theorem claim_C8_witness :
    mult_by_zero (.op .mul (.var ['x']) (.num 0)) = .num 0 ∧
      mult_by_zero (.op .mul (.num 0) (.var ['x'])) = .num 0 :=
  ⟨(claim_C8_mult_by_zero (.var ['x']) (.num 0)).1 (Or.inr rfl),
    (claim_C8_mult_by_zero (.num 0) (.var ['x'])).1 (Or.inl rfl)⟩

/-- C9 counterexample: the token `"--5"` passes the numeric guard (all
leading minus signs are stripped before `isnumeric`), so it is not treated
as an operator symbol with two parsed children: the integer conversion
fails and the parse raises `ValueError`. -/
theorem claim_C9_counterexample :
    parse [['-', '-', '5'], ['x'], ['y']] = .error .valueError := rfl

/-- C9 amended: for a nonempty token sequence the parser classifies the
removed first token by `lstrip`-of-all-minuses then `isnumeric`: if the
guard holds and `int` conversion succeeds (at most one leading minus) the
token becomes a `Number` leaf with its signed value, and if the conversion
fails (two or more leading minuses) the parse raises a fatal `ValueError`;
a non-numeric token solely of alphabetic characters becomes a `Variable`
leaf holding the name; any other token becomes an operator symbol with two
recursively parsed children. -/
theorem claim_C9_amended :
    ∀ (t : Str) (rest : List Str),
      (∀ n : Int, pyIsNumeric (lstripMinus t) = true → pyInt t = some n →
        parse (t :: rest) = .ok (.num n, rest)) ∧
      (pyIsNumeric (lstripMinus t) = true → pyInt t = none →
        parse (t :: rest) = .error .valueError) ∧
      (pyIsNumeric (lstripMinus t) = false → pyIsAlpha t = true →
        parse (t :: rest) = .ok (.var t, rest)) ∧
      (pyIsNumeric (lstripMinus t) = false → pyIsAlpha t = false →
        ∀ (l : RawNode) (rest1 : List Str) (r : RawNode) (rest2 : List Str),
          parse rest = .ok (l, rest1) → parse rest1 = .ok (r, rest2) →
          parse (t :: rest) = .ok (.opr t l r, rest2)) := by
  intro t rest
  refine ⟨fun n h1 h2 => ?_, fun h1 h2 => ?_, fun h1 h2 => ?_,
    fun h1 h2 => parse_cons_op t rest h1 h2⟩
  · show parseF (rest.length + 1) (t :: rest) = _
    simp only [parseF]
    rw [if_pos h1, h2]
  · show parseF (rest.length + 1) (t :: rest) = _
    simp only [parseF]
    rw [if_pos h1, h2]
  · show parseF (rest.length + 1) (t :: rest) = _
    simp only [parseF]
    rw [if_neg (by simp [h1]), if_pos h2]

theorem claim_C9_witness :
    parse [['-', '5'], ['y']] = .ok (.num (-5), [['y']]) ∧
      parse [['-', '-', '5']] = .error .valueError ∧
      parse [['x'], ['y']] = .ok (.var ['x'], [['y']]) ∧
      parse [['+'], ['1'], ['2']] = .ok (.opr ['+'] (.num 1) (.num 2), []) :=
  ⟨(claim_C9_amended ['-', '5'] [['y']]).1 (-5) (by rfl) (by rfl),
    (claim_C9_amended ['-', '-', '5'] []).2.1 (by rfl) (by rfl),
    (claim_C9_amended ['x'] [['y']]).2.2.1 (by rfl) (by rfl),
    (claim_C9_amended ['+'] [['1'], ['2']]).2.2.2 (by rfl) (by rfl)
      (.num 1) [['2']] (.num 2) [] (by rfl) (by rfl)⟩

/-- C10: at an operator node whose recursively folded children are not
both number leaves, `constant_fold` additionally applies additive-identity
elimination, multiplicative-identity elimination and multiplication-by-zero
to the subtree rooted at that node; in particular `constant_fold` alone
already rewrites the tree of `"+ x 0"` to `"x"`. -/
theorem claim_C10_fold_runs_identities :
    ∀ (s : OpSym) (l r l2 r2 : Node),
      (constant_fold l = .ok l2 → constant_fold r = .ok r2 →
        ¬(isNum l2 = true ∧ isNum r2 = true) →
        constant_fold (.op s l r) =
          .ok (mult_by_zero (mult_id (add_id (.op s l2 r2))))) ∧
      constant_fold (.op .add (.var ['x']) (.num 0)) = .ok (.var ['x']) := by
  intro s l r l2 r2
  refine ⟨fun h1 h2 hnn => ?_, rfl⟩
  simp only [constant_fold]
  rw [h1]
  simp only []
  rw [h2]
  simp only []
  cases l2 with
  | num a =>
    cases r2 with
    | num b => exact absurd ⟨rfl, rfl⟩ hnn
    | var s2 => rfl
    | op s2 x y => rfl
  | var s2 => cases r2 <;> rfl
  | op s2 x y => cases r2 <;> rfl

theorem claim_C10_witness :
    constant_fold (.op .add (.var ['x']) (.num 0)) =
      .ok (mult_by_zero (mult_id (add_id (.op .add (.var ['x']) (.num 0))))) :=
  (claim_C10_fold_runs_identities .add (.var ['x']) (.num 0) (.var ['x'])
    (.num 0)).1 rfl rfl (by decide)

